import Mathlib

/-!
Shallow embedding of the lexical (keyword) retrieval index of
`src/app/vectorstore.py` (`_tokenize`, `_KeywordStore`, `_ScoredPoint`,
and the lexical branch of `VectorStore`), together with proofs of the
specification's claims about it.

Python `dict` / `collections.Counter` objects are modelled as
insertion-ordered association lists with unique keys, which preserves
both the lookup semantics and the iteration order of the source.
Floating-point numbers are modelled as real numbers.
-/

namespace ElSol

/-- A Python `dict` (or `Counter`) keyed by strings: an insertion-ordered
association list.  All dictionaries built by the program have unique keys. -/
abbrev Dict (β : Type) : Type := List (String × β)

/-- Python `d[k]` / `d.get(k)`: value at the first entry with key `k`. -/
def dictGet {β : Type} : Dict β → String → Option β
  | [], _ => none
  | (k', v) :: rest, k => if k' = k then some v else dictGet rest k

/-- Python `d.get(k, v0)` (and `Counter` indexing, where `v0 = 0`). -/
def dictGetD {β : Type} (d : Dict β) (k : String) (v0 : β) : β :=
  (dictGet d k).getD v0

/-- Python `k in d`. -/
def dictHas {β : Type} (d : Dict β) (k : String) : Bool :=
  (dictGet d k).isSome

/-- Python `d[k] = v`: replace the value in place when the key exists,
otherwise append the new entry at the end (insertion order). -/
def dictSet {β : Type} : Dict β → String → β → Dict β
  | [], k, v => [(k, v)]
  | (k', v') :: rest, k, v =>
    if k' = k then (k', v) :: rest else (k', v') :: dictSet rest k v

/-- Python `del d[k]`: remove the (first) entry with key `k`. -/
def dictDel {β : Type} : Dict β → String → Dict β
  | [], _ => []
  | (k', v') :: rest, k => if k' = k then rest else (k', v') :: dictDel rest k

/-- Python `a | b` (also `{**a, **b}`): entries of `a` updated by those of
`b` in order; keys new to `a` are appended in `b`'s order. -/
def dictMerge {β : Type} (a b : Dict β) : Dict β :=
  b.foldl (fun acc kv => dictSet acc kv.1 kv.2) a

/-- Python `list(d.keys())` in insertion order. -/
def dictKeys {β : Type} (d : Dict β) : List String :=
  d.map Prod.fst

/-- Word characters of the token pattern `\w+` (ASCII letters, digits and
the underscore; the inputs considered here are ASCII). -/
def isWordChar (c : Char) : Bool :=
  c.isAlphanum || c == '_'

/-- Maximal runs of word characters, accumulating the current run reversed. -/
def tokenizeChars : List Char → List Char → List String
  | [], cur => if cur.isEmpty then [] else [String.mk cur.reverse]
  | c :: cs, cur =>
    if isWordChar c then tokenizeChars cs (c :: cur)
    else if cur.isEmpty then tokenizeChars cs []
    else String.mk cur.reverse :: tokenizeChars cs []

/-- `_token_re.findall(text)`: the maximal word-character runs of `text`. -/
def findWordTokens (text : String) : List String :=
  tokenizeChars text.toList []

/-- Python `str.lower` (character-wise, as for the ASCII inputs used here). -/
def strLower (s : String) : String :=
  String.mk (s.toList.map Char.toLower)

/-- `_tokenize(text)`: `[t.lower() for t in _token_re.findall(text or "")]`. -/
def tokenize (text : String) : List String :=
  (findWordTokens text).map strLower

/-- One counting step of `collections.Counter`: `c[t] += 1`. -/
def counterStep (c : Dict Nat) (t : String) : Dict Nat :=
  dictSet c t (dictGetD c t 0 + 1)

/-- `collections.Counter(tokens)`: count occurrences, keys in first-seen order. -/
def counterOf (ts : List String) : Dict Nat :=
  ts.foldl counterStep []

/-- The state of `_KeywordStore`: stored payloads (`self.docs[doc_id]` holds
`{"payload": p}` in Python and is only ever read back at `["payload"]`, so we
store `p` directly), the document-frequency counter `self.term_df`, the
per-document term counts `self.doc_tokens`, and the corpus size `self.N`. -/
structure KeywordStore where
  docs : Dict (Dict String)
  term_df : Dict Int
  doc_tokens : Dict (Dict Nat)
  N : Nat
deriving DecidableEq

/-- `_KeywordStore.__init__`. -/
def KeywordStore.init : KeywordStore :=
  { docs := [], term_df := [], doc_tokens := [], N := 0 }

/-- One retraction step of `_KeywordStore.add`:
`self.term_df[term] -= 1; if self.term_df[term] <= 0: del self.term_df[term]`.
A `Counter` read of a missing key yields `0`, and the decremented value is
written back before the `<= 0` test. -/
def retractTerm (df : Dict Int) (t : String) : Dict Int :=
  let df' := dictSet df t (dictGetD df t 0 - 1)
  if dictGetD df' t 0 ≤ 0 then dictDel df' t else df'

/-- One increment step of `_KeywordStore.add`: `self.term_df[term] += 1`. -/
def incTerm (df : Dict Int) (t : String) : Dict Int :=
  dictSet df t (dictGetD df t 0 + 1)

/-- `_KeywordStore.add(doc_id, text, payload)`.  When `doc_id` is already
stored, the previous document's distinct terms are retracted from
`self.term_df` first; then the new text is tokenized and counted, the new
counts are stored, each distinct new term increments `self.term_df`, the
payload is stored as `payload | {"text": text}`, and `self.N` is recomputed
as `len(self.docs)`.  (`self.doc_tokens[doc_id]` is read with a default `[]`;
whenever `doc_id ∈ self.docs` the key is present, so this matches the
source's direct indexing.) -/
def KeywordStore.add (s : KeywordStore) (doc_id text : String)
    (payload : Dict String) : KeywordStore :=
  let df1 :=
    if dictHas s.docs doc_id then
      (dictKeys ((dictGet s.doc_tokens doc_id).getD [])).foldl retractTerm s.term_df
    else s.term_df
  let tf := counterOf (tokenize text)
  let doc_tokens' := dictSet s.doc_tokens doc_id tf
  let term_df' := (dictKeys tf).foldl incTerm df1
  let docs' := dictSet s.docs doc_id (dictMerge payload [("text", text)])
  { docs := docs', term_df := term_df', doc_tokens := doc_tokens', N := docs'.length }

/-- One loop iteration of `_KeywordStore._tfidf_vec`: skip a term with
`df == 0 or N == 0`, otherwise assign `f * (log((1 + N) / (1 + df)) + 1.0)`. -/
noncomputable def tfidfStep (s : KeywordStore) (vec : Dict ℝ)
    (kv : String × Nat) : Dict ℝ :=
  let df := dictGetD s.term_df kv.1 0
  if df = 0 ∨ s.N = 0 then vec
  else dictSet vec kv.1
    ((kv.2 : ℝ) * (Real.log ((1 + (s.N : ℝ)) / (1 + (df : ℝ))) + 1))

/-- `_KeywordStore._tfidf_vec(tf)`. -/
noncomputable def KeywordStore.tfidf_vec (s : KeywordStore) (tf : Dict Nat) :
    Dict ℝ :=
  tf.foldl (tfidfStep s) []

/-- The dot-product loop of `_KeywordStore._cosine` over the smaller dict. -/
noncomputable def cosineDot (small big : Dict ℝ) : ℝ :=
  small.foldl
    (fun acc kv => if dictHas big kv.1 then acc + kv.2 * dictGetD big kv.1 0 else acc)
    0

/-- A squared-norm accumulation loop of `_KeywordStore._cosine`. -/
noncomputable def sumSquares (d : Dict ℝ) : ℝ :=
  d.foldl (fun acc kv => acc + kv.2 * kv.2) 0

/-- `_KeywordStore._cosine(a, b)`: `0.0` when either dict is empty, the dot
product over the smaller dict's keys, `0.0` when either squared norm is zero,
otherwise `dot / sqrt(na * nb)`. -/
noncomputable def cosine (a b : Dict ℝ) : ℝ :=
  if a.isEmpty || b.isEmpty then 0
  else
    let dot := if a.length < b.length then cosineDot a b else cosineDot b a
    let na := sumSquares a
    let nb := sumSquares b
    if na = 0 ∨ nb = 0 then 0 else dot / Real.sqrt (na * nb)

/-- `_ScoredPoint(id, score, payload)`. -/
structure ScoredPoint where
  id : String
  score : ℝ
  payload : Dict String

/-- Python's `lst[:k]` slice: the first `k` elements for `k ≥ 0`, and all but
the last `|k|` elements for `k < 0` (empty when `|k| ≥ len(lst)`). -/
def pySlice {α : Type} (l : List α) (k : Int) : List α :=
  if k < 0 then l.take (l.length - k.natAbs) else l.take k.toNat

/-- The descending lexicographic order used by `scores.sort(reverse=True)` on
`(score, doc_id)` pairs: `x` may precede `y` iff `x`'s score is larger, or the
scores are equal and `x`'s `doc_id` is lexicographically at least `y`'s. -/
noncomputable def descLe (x y : ℝ × String) : Bool :=
  decide (y.1 < x.1 ∨ (y.1 = x.1 ∧ y.2 ≤ x.2))

/-- The `scores` list built by `_KeywordStore.search` before sorting: one
`(score, doc_id)` pair per stored document, in `self.doc_tokens` order. -/
noncomputable def KeywordStore.scoreList (s : KeywordStore) (query : String) :
    List (ℝ × String) :=
  let q_vec := s.tfidf_vec (counterOf (tokenize query))
  s.doc_tokens.map (fun kv => (cosine q_vec (s.tfidf_vec kv.2), kv.1))

/-- `_KeywordStore.search(query, top_k)`:  score every stored document,
`scores.sort(reverse=True)` (all pairs are distinct in score or `doc_id`, so
every correct sort produces this unique descending list — `mergeSort` is one
such), take `scores[:top_k]`, and package each pair as a `_ScoredPoint` with
the stored payload (`self.docs[doc_id]["payload"]`, present by construction,
modelled with default `[]`). -/
noncomputable def KeywordStore.search (s : KeywordStore) (query : String)
    (top_k : Int) : List ScoredPoint :=
  let sorted := (s.scoreList query).mergeSort descLe
  (pySlice sorted top_k).map (fun p => ⟨p.2, p.1, dictGetD s.docs p.2 []⟩)

/-- `VectorStore.add_document(doc_id, text, metadata)` in keyword (lexical)
mode: `self._kw.add(doc_id, text, {"text": text, **metadata})`. -/
def addDocument (s : KeywordStore) (doc_id text : String)
    (metadata : Dict String) : KeywordStore :=
  KeywordStore.add s doc_id text (dictMerge [("text", text)] metadata)

/-- `VectorStore.query(text, top_k)` in keyword (lexical) mode. -/
noncomputable def query (s : KeywordStore) (text : String) (top_k : Int) :
    List ScoredPoint :=
  KeywordStore.search s text top_k

/-- One `add_document` call: its arguments. -/
structure AddOp where
  doc_id : String
  text : String
  metadata : Dict String
deriving DecidableEq

/-- The store reached from a fresh lexical `VectorStore` by a sequence of
`add_document` calls. -/
def runAdds (ops : List AddOp) : KeywordStore :=
  ops.foldl (fun s op => addDocument s op.doc_id op.text op.metadata)
    KeywordStore.init

/-- Number of currently stored documents whose term-frequency table contains
the term `t` (the quantity `DF(t)` is specified to track). -/
def countTermDocs (s : KeywordStore) (t : String) : Nat :=
  s.doc_tokens.countP (fun kv => dictHas kv.2 t)

end ElSol

namespace ElSol

/-! ### Basic dictionary lemmas -/

theorem dictGet_eq_none_of_not_mem {β : Type} {d : Dict β} {k : String}
    (h : k ∉ dictKeys d) : dictGet d k = none := by
  induction d with
  | nil => rfl
  | cons kv rest ih =>
    obtain ⟨k', v'⟩ := kv
    simp only [dictKeys, List.map_cons, List.mem_cons] at h
    push_neg at h
    have hne : ¬ k' = k := fun hh => h.1 hh.symm
    simp [dictGet, hne, ih (by simpa [dictKeys] using h.2)]

theorem mem_dictKeys_of_get {β : Type} {d : Dict β} {k : String} {v : β}
    (h : dictGet d k = some v) : k ∈ dictKeys d := by
  by_contra hk
  rw [dictGet_eq_none_of_not_mem hk] at h
  exact Option.noConfusion h

theorem dictGet_mem {β : Type} {d : Dict β} {k : String} {v : β}
    (h : dictGet d k = some v) : (k, v) ∈ d := by
  induction d with
  | nil => exact Option.noConfusion h
  | cons kv rest ih =>
    obtain ⟨k', v'⟩ := kv
    by_cases hk : k' = k
    · subst hk
      simp [dictGet] at h
      simp [h]
    · simp [dictGet, hk] at h
      simp [ih h]

theorem dictHas_iff_mem_keys {β : Type} {d : Dict β} {k : String} :
    dictHas d k = true ↔ k ∈ dictKeys d := by
  induction d with
  | nil => simp [dictHas, dictGet, dictKeys]
  | cons kv rest ih =>
    obtain ⟨k', v'⟩ := kv
    by_cases hk : k' = k
    · simp [dictHas, dictGet, dictKeys, hk]
    · have hne : ¬ k = k' := fun hh => hk hh.symm
      unfold dictHas at ih ⊢
      simp only [dictGet, if_neg hk]
      rw [ih]
      simp [dictKeys, hne]

theorem dictGet_dictSet_self {β : Type} (d : Dict β) (k : String) (v : β) :
    dictGet (dictSet d k v) k = some v := by
  induction d with
  | nil => simp [dictSet, dictGet]
  | cons kv rest ih =>
    obtain ⟨k', v'⟩ := kv
    by_cases h : k' = k
    · simp [dictSet, dictGet, h]
    · simp [dictSet, dictGet, h, ih]

theorem dictGet_dictSet_ne {β : Type} (d : Dict β) {k k' : String} (v : β)
    (h : k ≠ k') : dictGet (dictSet d k v) k' = dictGet d k' := by
  induction d with
  | nil => simp [dictSet, dictGet, h]
  | cons kv rest ih =>
    obtain ⟨k₀, v₀⟩ := kv
    by_cases hk : k₀ = k
    · subst hk
      simp [dictSet, dictGet, h]
    · simp [dictSet, dictGet, hk, ih]

theorem dictGet_dictDel_ne {β : Type} (d : Dict β) {k k' : String}
    (h : k ≠ k') : dictGet (dictDel d k) k' = dictGet d k' := by
  induction d with
  | nil => rfl
  | cons kv rest ih =>
    obtain ⟨k₀, v₀⟩ := kv
    by_cases hk : k₀ = k
    · subst hk
      simp [dictDel, dictGet, h]
    · simp [dictDel, dictGet, hk, ih]

theorem dictGet_dictDel_self {β : Type} {d : Dict β} {k : String}
    (hnd : (dictKeys d).Nodup) : dictGet (dictDel d k) k = none := by
  induction d with
  | nil => rfl
  | cons kv rest ih =>
    obtain ⟨k₀, v₀⟩ := kv
    simp only [dictKeys, List.map_cons, List.nodup_cons] at hnd
    by_cases hk : k₀ = k
    · subst hk
      simpa [dictDel] using dictGet_eq_none_of_not_mem (by simpa [dictKeys] using hnd.1)
    · simp [dictDel, dictGet, hk, ih hnd.2]

theorem dictKeys_dictSet_mem {β : Type} {d : Dict β} {k : String} (v : β)
    (h : k ∈ dictKeys d) : dictKeys (dictSet d k v) = dictKeys d := by
  induction d with
  | nil => simp [dictKeys] at h
  | cons kv rest ih =>
    obtain ⟨k₀, v₀⟩ := kv
    by_cases hk : k₀ = k
    · simp [dictSet, dictKeys, hk]
    · have h' : k ∈ dictKeys rest := by
        simp only [dictKeys, List.map_cons, List.mem_cons] at h
        rcases h with h | h
        · exact absurd h.symm hk
        · simpa [dictKeys] using h
      calc dictKeys (dictSet ((k₀, v₀) :: rest) k v)
          = k₀ :: dictKeys (dictSet rest k v) := by simp [dictSet, dictKeys, hk]
        _ = k₀ :: dictKeys rest := by rw [ih h']
        _ = dictKeys ((k₀, v₀) :: rest) := by simp [dictKeys]

theorem dictKeys_dictSet_not_mem {β : Type} {d : Dict β} {k : String} (v : β)
    (h : k ∉ dictKeys d) : dictKeys (dictSet d k v) = dictKeys d ++ [k] := by
  induction d with
  | nil => simp [dictSet, dictKeys]
  | cons kv rest ih =>
    obtain ⟨k₀, v₀⟩ := kv
    simp only [dictKeys, List.map_cons, List.mem_cons] at h
    push_neg at h
    have hk : ¬ k₀ = k := fun hh => h.1 hh.symm
    have h' : k ∉ dictKeys rest := by simpa [dictKeys] using h.2
    calc dictKeys (dictSet ((k₀, v₀) :: rest) k v)
        = k₀ :: dictKeys (dictSet rest k v) := by simp [dictSet, dictKeys, hk]
      _ = k₀ :: (dictKeys rest ++ [k]) := by rw [ih h']
      _ = dictKeys ((k₀, v₀) :: rest) ++ [k] := by simp [dictKeys]

theorem nodup_dictKeys_dictSet {β : Type} {d : Dict β} {k : String} (v : β)
    (hnd : (dictKeys d).Nodup) : (dictKeys (dictSet d k v)).Nodup := by
  by_cases h : k ∈ dictKeys d
  · rw [dictKeys_dictSet_mem v h]; exact hnd
  · rw [dictKeys_dictSet_not_mem v h]
    simpa [List.nodup_append] using ⟨hnd, h⟩

theorem dictKeys_dictDel_sublist {β : Type} (d : Dict β) (k : String) :
    (dictKeys (dictDel d k)).Sublist (dictKeys d) := by
  induction d with
  | nil => simp [dictDel, dictKeys]
  | cons kv rest ih =>
    obtain ⟨k₀, v₀⟩ := kv
    by_cases hk : k₀ = k
    · simp [dictDel, dictKeys, hk]
    · simpa [dictDel, dictKeys, hk] using ih.cons₂ k₀

theorem nodup_dictKeys_dictDel {β : Type} {d : Dict β} (k : String)
    (hnd : (dictKeys d).Nodup) : (dictKeys (dictDel d k)).Nodup :=
  (dictKeys_dictDel_sublist d k).nodup hnd

end ElSol

namespace ElSol

/-! ### Counting, merging and commutation lemmas -/

theorem countP_dictSet_not_mem {β : Type} (p : String × β → Bool) {d : Dict β}
    {k : String} (v : β) (h : k ∉ dictKeys d) :
    (dictSet d k v).countP p = d.countP p + (if p (k, v) then 1 else 0) := by
  induction d with
  | nil => simp [dictSet, List.countP_cons]
  | cons kv rest ih =>
    obtain ⟨k₀, v₀⟩ := kv
    simp only [dictKeys, List.map_cons, List.mem_cons] at h
    push_neg at h
    have hk : ¬ k₀ = k := fun hh => h.1 hh.symm
    have h' : k ∉ dictKeys rest := by simpa [dictKeys] using h.2
    simp [dictSet, hk, List.countP_cons, ih h']
    omega

theorem countP_dictSet_get {β : Type} (p : String × β → Bool) {d : Dict β}
    {k : String} {w : β} (v : β) (hnd : (dictKeys d).Nodup)
    (h : dictGet d k = some w) :
    (dictSet d k v).countP p + (if p (k, w) then 1 else 0)
      = d.countP p + (if p (k, v) then 1 else 0) := by
  induction d with
  | nil => exact Option.noConfusion h
  | cons kv rest ih =>
    obtain ⟨k₀, v₀⟩ := kv
    simp only [dictKeys, List.map_cons, List.nodup_cons] at hnd
    by_cases hk : k₀ = k
    · subst hk
      simp only [dictGet, if_pos rfl] at h
      injection h with h'
      subst h'
      simp [dictSet, List.countP_cons]
      omega
    · simp only [dictGet, if_neg hk] at h
      have ihx := ih (by simpa [dictKeys] using hnd.2) h
      simp only [dictSet, if_neg hk, List.countP_cons]
      omega

theorem dictMerge_single {β : Type} (a : Dict β) (k : String) (v : β) :
    dictMerge a [(k, v)] = dictSet a k v := rfl

theorem dictMerge_get_of_not_mem {β : Type} {b : Dict β} (a : Dict β)
    {k : String} (h : k ∉ dictKeys b) :
    dictGet (dictMerge a b) k = dictGet a k := by
  induction b generalizing a with
  | nil => rfl
  | cons kv rest ih =>
    obtain ⟨k₀, v₀⟩ := kv
    simp only [dictKeys, List.map_cons, List.mem_cons] at h
    push_neg at h
    have h' : k ∉ dictKeys rest := by simpa [dictKeys] using h.2
    show dictGet (dictMerge (dictSet a k₀ v₀) rest) k = dictGet a k
    rw [ih _ h', dictGet_dictSet_ne _ _ (fun hh => h.1 hh.symm)]

theorem dictMerge_get_of_get_some {β : Type} {b : Dict β} (a : Dict β)
    {k : String} {v : β} (hnd : (dictKeys b).Nodup) (h : dictGet b k = some v) :
    dictGet (dictMerge a b) k = some v := by
  induction b generalizing a with
  | nil => exact Option.noConfusion h
  | cons kv rest ih =>
    obtain ⟨k₀, v₀⟩ := kv
    simp only [dictKeys, List.map_cons, List.nodup_cons] at hnd
    by_cases hk : k₀ = k
    · subst hk
      simp only [dictGet, if_pos rfl] at h
      injection h with h'
      show dictGet (dictMerge (dictSet a k₀ v₀) rest) k₀ = some v
      rw [dictMerge_get_of_not_mem _ (by simpa [dictKeys] using hnd.1),
        dictGet_dictSet_self, h']
    · simp only [dictGet, if_neg hk] at h
      exact ih _ (by simpa [dictKeys] using hnd.2) h

theorem dictSet_dictSet_perm {β : Type} (d : Dict β) {k1 k2 : String}
    (v1 v2 : β) (h : k1 ≠ k2) :
    (dictSet (dictSet d k1 v1) k2 v2).Perm (dictSet (dictSet d k2 v2) k1 v1) := by
  induction d with
  | nil =>
    simp only [dictSet, if_neg h, if_neg (Ne.symm h)]
    exact List.Perm.swap _ _ _
  | cons kv rest ih =>
    obtain ⟨k₀, v₀⟩ := kv
    by_cases h1 : k₀ = k1
    · subst h1
      simp only [dictSet, if_pos rfl, if_neg h]
      exact List.Perm.refl _
    · by_cases h2 : k₀ = k2
      · subst h2
        simp only [dictSet, if_pos rfl, if_neg (Ne.symm h), if_neg h1]
        exact List.Perm.refl _
      · simp only [dictSet, if_neg h1, if_neg h2]
        exact (ih).cons _

end ElSol

namespace ElSol

/-! ### Pointwise behaviour of the add-loop folds -/

theorem retractTerm_get_ne (df : Dict Int) {t t' : String} (h : t ≠ t') :
    dictGet (retractTerm df t) t' = dictGet df t' := by
  simp only [retractTerm]
  split_ifs
  · rw [dictGet_dictDel_ne _ h, dictGet_dictSet_ne _ _ h]
  · exact dictGet_dictSet_ne _ _ h

theorem retractTerm_get_self {df : Dict Int} (hnd : (dictKeys df).Nodup)
    (t : String) :
    dictGet (retractTerm df t) t =
      if dictGetD df t 0 - 1 ≤ 0 then none else some (dictGetD df t 0 - 1) := by
  have hset : dictGet (dictSet df t (dictGetD df t 0 - 1)) t
      = some (dictGetD df t 0 - 1) := dictGet_dictSet_self df t _
  have hgd : dictGetD (dictSet df t (dictGetD df t 0 - 1)) t 0
      = dictGetD df t 0 - 1 := by
    rw [dictGetD, hset]
    rfl
  simp only [retractTerm, hgd]
  by_cases hc : dictGetD df t 0 - 1 ≤ 0
  · simp only [if_pos hc]
    exact dictGet_dictDel_self (nodup_dictKeys_dictSet _ hnd)
  · simp only [if_neg hc, hset]

theorem nodup_retractTerm {df : Dict Int} (t : String)
    (hnd : (dictKeys df).Nodup) : (dictKeys (retractTerm df t)).Nodup := by
  simp only [retractTerm]
  split_ifs
  · exact nodup_dictKeys_dictDel _ (nodup_dictKeys_dictSet _ hnd)
  · exact nodup_dictKeys_dictSet _ hnd

theorem nodup_foldl_retractTerm (terms : List String) {df : Dict Int}
    (hnd : (dictKeys df).Nodup) :
    (dictKeys (terms.foldl retractTerm df)).Nodup := by
  induction terms generalizing df with
  | nil => exact hnd
  | cons a rest ih => exact ih (nodup_retractTerm a hnd)

theorem foldl_retractTerm_get_not_mem {terms : List String} {df : Dict Int}
    {t : String} (h : t ∉ terms) :
    dictGet (terms.foldl retractTerm df) t = dictGet df t := by
  induction terms generalizing df with
  | nil => rfl
  | cons a rest ih =>
    simp only [List.mem_cons] at h
    push_neg at h
    rw [List.foldl_cons, ih h.2, retractTerm_get_ne _ (fun hh => h.1 hh.symm)]

theorem foldl_retractTerm_get_mem {terms : List String} (hndt : terms.Nodup)
    {df : Dict Int} (hnd : (dictKeys df).Nodup) {t : String} (ht : t ∈ terms) :
    dictGet (terms.foldl retractTerm df) t =
      if dictGetD df t 0 - 1 ≤ 0 then none else some (dictGetD df t 0 - 1) := by
  induction terms generalizing df with
  | nil => cases ht
  | cons a rest ih =>
    simp only [List.nodup_cons] at hndt
    rcases List.mem_cons.mp ht with rfl | hmem
    · rw [List.foldl_cons, foldl_retractTerm_get_not_mem hndt.1,
        retractTerm_get_self hnd]
    · have hne : a ≠ t := fun hh => hndt.1 (hh ▸ hmem)
      have heq : dictGetD (retractTerm df a) t 0 = dictGetD df t 0 := by
        simp [dictGetD, retractTerm_get_ne _ hne]
      rw [List.foldl_cons, ih hndt.2 (nodup_retractTerm a hnd) hmem, heq]

theorem incTerm_get_self (df : Dict Int) (t : String) :
    dictGet (incTerm df t) t = some (dictGetD df t 0 + 1) :=
  dictGet_dictSet_self df t _

theorem incTerm_get_ne (df : Dict Int) {t t' : String} (h : t ≠ t') :
    dictGet (incTerm df t) t' = dictGet df t' :=
  dictGet_dictSet_ne df _ h

theorem nodup_incTerm {df : Dict Int} (t : String)
    (hnd : (dictKeys df).Nodup) : (dictKeys (incTerm df t)).Nodup :=
  nodup_dictKeys_dictSet _ hnd

theorem nodup_foldl_incTerm (terms : List String) {df : Dict Int}
    (hnd : (dictKeys df).Nodup) :
    (dictKeys (terms.foldl incTerm df)).Nodup := by
  induction terms generalizing df with
  | nil => exact hnd
  | cons a rest ih => exact ih (nodup_incTerm a hnd)

theorem foldl_incTerm_get_not_mem {terms : List String} {df : Dict Int}
    {t : String} (h : t ∉ terms) :
    dictGet (terms.foldl incTerm df) t = dictGet df t := by
  induction terms generalizing df with
  | nil => rfl
  | cons a rest ih =>
    simp only [List.mem_cons] at h
    push_neg at h
    rw [List.foldl_cons, ih h.2, incTerm_get_ne _ (fun hh => h.1 hh.symm)]

theorem foldl_incTerm_get_mem {terms : List String} (hndt : terms.Nodup)
    {df : Dict Int} {t : String} (ht : t ∈ terms) :
    dictGet (terms.foldl incTerm df) t = some (dictGetD df t 0 + 1) := by
  induction terms generalizing df with
  | nil => cases ht
  | cons a rest ih =>
    simp only [List.nodup_cons] at hndt
    rcases List.mem_cons.mp ht with rfl | hmem
    · rw [List.foldl_cons, foldl_incTerm_get_not_mem hndt.1, incTerm_get_self]
    · have hne : a ≠ t := fun hh => hndt.1 (hh ▸ hmem)
      have heq : dictGetD (incTerm df a) t 0 = dictGetD df t 0 := by
        simp [dictGetD, incTerm_get_ne _ hne]
      rw [List.foldl_cons, ih hndt.2 hmem, heq]

/-! ### Counter lemmas -/

theorem mem_dictKeys_dictSet {β : Type} (d : Dict β) (k : String) (v : β)
    (t : String) :
    t ∈ dictKeys (dictSet d k v) ↔ t ∈ dictKeys d ∨ t = k := by
  by_cases h : k ∈ dictKeys d
  · rw [dictKeys_dictSet_mem v h]
    constructor
    · exact Or.inl
    · rintro (ht | rfl)
      · exact ht
      · exact h
  · rw [dictKeys_dictSet_not_mem v h]
    simp [List.mem_append]

theorem nodup_dictKeys_counterOf (ts : List String) :
    (dictKeys (counterOf ts)).Nodup := by
  have aux : ∀ (acc : Dict Nat), (dictKeys acc).Nodup →
      (dictKeys (ts.foldl counterStep acc)).Nodup := by
    induction ts with
    | nil => exact fun acc h => h
    | cons a rest ih =>
      exact fun acc h => ih _ (nodup_dictKeys_dictSet _ h)
  exact aux [] (by simp [dictKeys])

theorem mem_dictKeys_counterOf {ts : List String} {t : String} :
    t ∈ dictKeys (counterOf ts) ↔ t ∈ ts := by
  have aux : ∀ (acc : Dict Nat),
      (t ∈ dictKeys (ts.foldl counterStep acc) ↔ t ∈ dictKeys acc ∨ t ∈ ts) := by
    induction ts with
    | nil => simp
    | cons a rest ih =>
      intro acc
      rw [List.foldl_cons, ih]
      unfold counterStep
      rw [mem_dictKeys_dictSet]
      simp only [List.mem_cons]
      tauto
  simpa [counterOf, dictKeys] using aux []

end ElSol

namespace ElSol

/-! ### The data-structure invariant of the keyword store -/

/-- Invariant maintained by `_KeywordStore.add`: all dictionaries have unique
keys, `docs` and `doc_tokens` are keyed by the same `doc_id`s (in the same
order), every DF entry is positive and equals the number of stored documents
containing the term, and `N` is the number of stored documents. -/
structure Inv (s : KeywordStore) : Prop where
  nd_docs : (dictKeys s.docs).Nodup
  nd_tokens : (dictKeys s.doc_tokens).Nodup
  nd_df : (dictKeys s.term_df).Nodup
  nd_tf : ∀ d tf, dictGet s.doc_tokens d = some tf → (dictKeys tf).Nodup
  keys_eq : dictKeys s.docs = dictKeys s.doc_tokens
  df_count : ∀ t, dictGetD s.term_df t 0 = (countTermDocs s t : Int)
  df_pos : ∀ t v, dictGet s.term_df t = some v → 0 < v
  n_eq : s.N = s.docs.length

theorem Inv.df_canon {s : KeywordStore} (h : Inv s) (t : String) :
    dictGet s.term_df t =
      (if (countTermDocs s t : Int) = 0 then none
       else some (countTermDocs s t : Int)) := by
  have hc := h.df_count t
  cases hget : dictGet s.term_df t with
  | none =>
    have h0 : dictGetD s.term_df t 0 = 0 := by simp [dictGetD, hget]
    rw [h0] at hc
    rw [if_pos hc.symm]
  | some v =>
    have hv : dictGetD s.term_df t 0 = v := by simp [dictGetD, hget]
    have hpos := h.df_pos t v hget
    rw [hv] at hc
    rw [if_neg (by omega), ← hc]

theorem countTermDocs_pos {s : KeywordStore} {d t : String} {ptf : Dict Nat}
    (hget : dictGet s.doc_tokens d = some ptf) (hht : dictHas ptf t = true) :
    0 < countTermDocs s t :=
  List.countP_pos_iff.mpr ⟨(d, ptf), dictGet_mem hget, hht⟩

theorem has_of_mem_keys {β : Type} {d : Dict β} {k : String}
    (h : k ∈ dictKeys d) : dictHas d k = true :=
  dictHas_iff_mem_keys.mpr h

theorem has_false_of_not_mem_keys {β : Type} {d : Dict β} {k : String}
    (h : k ∉ dictKeys d) : dictHas d k = false := by
  cases hb : dictHas d k
  · rfl
  · exact absurd (dictHas_iff_mem_keys.mp hb) h

/-- Pointwise effect of `add` on the DF table: afterwards the entry for each
term is again in canonical form with respect to the new posting data. -/
theorem add_term_df_get {s : KeywordStore} (h : Inv s)
    (doc_id text : String) (payload : Dict String) (t : String) :
    dictGet (s.add doc_id text payload).term_df t =
      (if (countTermDocs (s.add doc_id text payload) t : Int) = 0 then none
       else some (countTermDocs (s.add doc_id text payload) t : Int)) := by
  have hndtf : (dictKeys (counterOf (tokenize text))).Nodup :=
    nodup_dictKeys_counterOf _
  have hterm : (s.add doc_id text payload).term_df
      = (dictKeys (counterOf (tokenize text))).foldl incTerm
          (if dictHas s.docs doc_id then
            (dictKeys ((dictGet s.doc_tokens doc_id).getD [])).foldl
              retractTerm s.term_df
           else s.term_df) := rfl
  have hcount : countTermDocs (s.add doc_id text payload) t
      = (dictSet s.doc_tokens doc_id (counterOf (tokenize text))).countP
          (fun kv => dictHas kv.2 t) := rfl
  have hdfc := h.df_count t
  rw [countTermDocs] at hdfc
  have hcanon := h.df_canon t
  rw [countTermDocs] at hcanon
  rw [hterm, hcount]
  by_cases hhas : dictHas s.docs doc_id
  · -- the document is being replaced
    obtain ⟨ptf, hptf⟩ : ∃ ptf, dictGet s.doc_tokens doc_id = some ptf := by
      have hmem : doc_id ∈ dictKeys s.doc_tokens :=
        h.keys_eq ▸ dictHas_iff_mem_keys.mp hhas
      exact Option.isSome_iff_exists.mp (has_of_mem_keys hmem)
    have hgetd : (dictGet s.doc_tokens doc_id).getD [] = ptf := by rw [hptf]; rfl
    have hndp : (dictKeys ptf).Nodup := h.nd_tf _ _ hptf
    have hstar := countP_dictSet_get (fun kv => dictHas kv.2 t)
      (counterOf (tokenize text)) h.nd_tokens hptf
    rw [if_pos hhas, hgetd]
    by_cases hp : t ∈ dictKeys ptf
    · have hhp : dictHas ptf t = true := has_of_mem_keys hp
      have hcpos : 0 < s.doc_tokens.countP (fun kv => dictHas kv.2 t) := by
        have := countTermDocs_pos hptf hhp
        rwa [countTermDocs] at this
      have hdf1 : dictGet ((dictKeys ptf).foldl retractTerm s.term_df) t =
          if dictGetD s.term_df t 0 - 1 ≤ 0 then none
          else some (dictGetD s.term_df t 0 - 1) :=
        foldl_retractTerm_get_mem hndp h.nd_df hp
      have hgd1 : dictGetD ((dictKeys ptf).foldl retractTerm s.term_df) t 0
          = dictGetD s.term_df t 0 - 1 := by
        rw [dictGetD, hdf1]
        split_ifs with hle
        · simp only [Option.getD_none]
          omega
        · rfl
      by_cases hn : t ∈ dictKeys (counterOf (tokenize text))
      · have hhn : dictHas (counterOf (tokenize text)) t = true := has_of_mem_keys hn
        simp only [hhp, hhn, if_true] at hstar
        rw [foldl_incTerm_get_mem hndtf hn, hgd1]
        rw [if_neg (by omega)]
        congr 1
        omega
      · have hhn : dictHas (counterOf (tokenize text)) t = false :=
          has_false_of_not_mem_keys hn
        simp only [hhp, hhn, if_true, Bool.false_eq_true, if_false] at hstar
        rw [foldl_incTerm_get_not_mem hn, hdf1]
        split_ifs with h1 h2 h2
        · rfl
        · exfalso; omega
        · exfalso; omega
        · congr 1; omega
    · have hhp : dictHas ptf t = false := has_false_of_not_mem_keys hp
      have hdf1 : dictGet ((dictKeys ptf).foldl retractTerm s.term_df) t
          = dictGet s.term_df t := foldl_retractTerm_get_not_mem hp
      have hgd1 : dictGetD ((dictKeys ptf).foldl retractTerm s.term_df) t 0
          = dictGetD s.term_df t 0 := by
        rw [dictGetD, hdf1]
        rfl
      by_cases hn : t ∈ dictKeys (counterOf (tokenize text))
      · have hhn : dictHas (counterOf (tokenize text)) t = true := has_of_mem_keys hn
        simp only [hhp, hhn, if_true, Bool.false_eq_true, if_false] at hstar
        rw [foldl_incTerm_get_mem hndtf hn, hgd1]
        rw [if_neg (by omega)]
        congr 1
        omega
      · have hhn : dictHas (counterOf (tokenize text)) t = false :=
          has_false_of_not_mem_keys hn
        simp only [hhp, hhn, Bool.false_eq_true, if_false] at hstar
        rw [foldl_incTerm_get_not_mem hn, hdf1, hcanon]
        have hce : (dictSet s.doc_tokens doc_id (counterOf (tokenize text))).countP
            (fun kv => dictHas kv.2 t)
            = s.doc_tokens.countP (fun kv => dictHas kv.2 t) := by omega
        rw [hce]
  · -- a fresh document
    have hnmem : doc_id ∉ dictKeys s.doc_tokens := by
      rw [← h.keys_eq]
      intro hmem
      rw [has_of_mem_keys hmem] at hhas
      exact hhas rfl
    have hstar := countP_dictSet_not_mem (fun kv => dictHas kv.2 t)
      (counterOf (tokenize text)) hnmem
    rw [if_neg hhas]
    by_cases hn : t ∈ dictKeys (counterOf (tokenize text))
    · have hhn : dictHas (counterOf (tokenize text)) t = true := has_of_mem_keys hn
      simp only [hhn, if_true] at hstar
      rw [foldl_incTerm_get_mem hndtf hn]
      rw [if_neg (by omega)]
      congr 1
      omega
    · have hhn : dictHas (counterOf (tokenize text)) t = false :=
        has_false_of_not_mem_keys hn
      simp only [hhn, Bool.false_eq_true, if_false] at hstar
      rw [foldl_incTerm_get_not_mem hn, hcanon]
      have hce : (dictSet s.doc_tokens doc_id (counterOf (tokenize text))).countP
          (fun kv => dictHas kv.2 t)
          = s.doc_tokens.countP (fun kv => dictHas kv.2 t) := by omega
      rw [hce]

end ElSol

namespace ElSol

theorem Inv.add_preserved {s : KeywordStore} (h : Inv s) (doc_id text : String)
    (payload : Dict String) : Inv (s.add doc_id text payload) := by
  have htok : (s.add doc_id text payload).doc_tokens
      = dictSet s.doc_tokens doc_id (counterOf (tokenize text)) := rfl
  have hdocs : (s.add doc_id text payload).docs
      = dictSet s.docs doc_id (dictMerge payload [("text", text)]) := rfl
  have hdfg := add_term_df_get h doc_id text payload
  refine ⟨?_, ?_, ?_, ?_, ?_, ?_, ?_, ?_⟩
  · rw [hdocs]
    exact nodup_dictKeys_dictSet _ h.nd_docs
  · rw [htok]
    exact nodup_dictKeys_dictSet _ h.nd_tokens
  · have hterm : (s.add doc_id text payload).term_df
        = (dictKeys (counterOf (tokenize text))).foldl incTerm
            (if dictHas s.docs doc_id then
              (dictKeys ((dictGet s.doc_tokens doc_id).getD [])).foldl
                retractTerm s.term_df
             else s.term_df) := rfl
    rw [hterm]
    apply nodup_foldl_incTerm
    split_ifs
    · exact nodup_foldl_retractTerm _ h.nd_df
    · exact h.nd_df
  · intro d tf hget
    rw [htok] at hget
    by_cases hd : doc_id = d
    · subst hd
      rw [dictGet_dictSet_self] at hget
      injection hget with hh
      rw [← hh]
      exact nodup_dictKeys_counterOf _
    · rw [dictGet_dictSet_ne _ _ hd] at hget
      exact h.nd_tf d tf hget
  · rw [hdocs, htok]
    by_cases hd : doc_id ∈ dictKeys s.docs
    · rw [dictKeys_dictSet_mem _ hd, dictKeys_dictSet_mem _ (h.keys_eq ▸ hd),
        h.keys_eq]
    · have hd' : doc_id ∉ dictKeys s.doc_tokens := fun hmem => hd (by
        rw [h.keys_eq]
        exact hmem)
      rw [dictKeys_dictSet_not_mem _ hd, dictKeys_dictSet_not_mem _ hd',
        h.keys_eq]
  · intro t
    rw [dictGetD, hdfg t]
    split_ifs with h0
    · simp only [Option.getD_none]
      omega
    · rfl
  · intro t v hget
    rw [hdfg t] at hget
    split_ifs at hget with h0
    injection hget with hh
    omega
  · rfl

theorem inv_init : Inv KeywordStore.init := by
  refine ⟨?_, ?_, ?_, ?_, ?_, ?_, ?_, ?_⟩ <;>
    simp [KeywordStore.init, dictKeys, dictGetD, dictGet, countTermDocs]

theorem inv_runAdds (ops : List AddOp) : Inv (runAdds ops) := by
  have aux : ∀ (l : List AddOp) (s : KeywordStore), Inv s →
      Inv (l.foldl (fun s op => addDocument s op.doc_id op.text op.metadata) s) := by
    intro l
    induction l with
    | nil => exact fun s hs => hs
    | cons op rest ih =>
      intro s hs
      exact ih _ (hs.add_preserved _ _ _)
  exact aux ops _ inv_init

theorem Inv.df_bounds {s : KeywordStore} (h : Inv s) (t : String) :
    0 ≤ dictGetD s.term_df t 0 ∧ dictGetD s.term_df t 0 ≤ (s.N : Int) := by
  have hc := h.df_count t
  have hle : countTermDocs s t ≤ s.doc_tokens.length := by
    rw [countTermDocs]
    exact List.countP_le_length _
  have hlen : s.docs.length = s.doc_tokens.length := by
    have hkl := congrArg List.length h.keys_eq
    simpa [dictKeys] using hkl
  have hn : s.N = s.doc_tokens.length := by rw [h.n_eq, hlen]
  constructor <;> omega

end ElSol

namespace ElSol

/-! ### TF-IDF vector lemmas -/

theorem tfidf_fold_get_not_mem (s : KeywordStore) {tf : Dict Nat} {t : String}
    (h : t ∉ dictKeys tf) (acc : Dict ℝ) :
    dictGet (tf.foldl (tfidfStep s) acc) t = dictGet acc t := by
  induction tf generalizing acc with
  | nil => rfl
  | cons kv rest ih =>
    obtain ⟨k, g⟩ := kv
    simp only [dictKeys, List.map_cons, List.mem_cons] at h
    push_neg at h
    have h' : t ∉ dictKeys rest := by simpa [dictKeys] using h.2
    rw [List.foldl_cons, ih h']
    simp only [tfidfStep]
    split_ifs
    · rfl
    · exact dictGet_dictSet_ne _ _ (fun hh => h.1 hh.symm)

theorem tfidf_fold_get_of_get_some (s : KeywordStore) (tf : Dict Nat) :
    ∀ (t : String) (f : Nat), (dictKeys tf).Nodup → dictGet tf t = some f →
      ∀ acc : Dict ℝ,
      dictGet (tf.foldl (tfidfStep s) acc) t =
        (if dictGetD s.term_df t 0 = 0 ∨ s.N = 0 then dictGet acc t
         else some ((f : ℝ) *
           (Real.log ((1 + (s.N : ℝ)) / (1 + ((dictGetD s.term_df t 0 : Int) : ℝ))) + 1))) := by
  induction tf with
  | nil => exact fun t f _ hget => Option.noConfusion hget
  | cons kv rest ih =>
    intro t f hnd hget acc
    obtain ⟨k, g⟩ := kv
    simp only [dictKeys, List.map_cons, List.nodup_cons] at hnd
    rw [List.foldl_cons]
    by_cases hk : k = t
    · subst hk
      have hf : g = f := by simpa [dictGet] using hget
      subst hf
      rw [tfidf_fold_get_not_mem s (by simpa [dictKeys] using hnd.1)]
      simp only [tfidfStep]
      split_ifs with hc
      · rfl
      · exact dictGet_dictSet_self _ _ _
    · have hget' : dictGet rest t = some f := by
        simpa [dictGet, hk] using hget
      rw [ih t f (by simpa [dictKeys] using hnd.2) hget' (tfidfStep s acc (k, g))]
      have hstep : dictGet (tfidfStep s acc (k, g)) t = dictGet acc t := by
        simp only [tfidfStep]
        split_ifs
        · rfl
        · exact dictGet_dictSet_ne _ _ hk
      rw [hstep]

theorem tfidf_vec_get_of_get_some (s : KeywordStore) {tf : Dict Nat}
    {t : String} {f : Nat} (hnd : (dictKeys tf).Nodup)
    (hget : dictGet tf t = some f) :
    dictGet (s.tfidf_vec tf) t =
      (if dictGetD s.term_df t 0 = 0 ∨ s.N = 0 then none
       else some ((f : ℝ) *
         (Real.log ((1 + (s.N : ℝ)) / (1 + ((dictGetD s.term_df t 0 : Int) : ℝ))) + 1))) := by
  rw [KeywordStore.tfidf_vec, tfidf_fold_get_of_get_some s tf t f hnd hget []]
  split_ifs
  · rfl
  · rfl

theorem tfidf_vec_get_none (s : KeywordStore) {tf : Dict Nat} {t : String}
    (h : t ∉ dictKeys tf) : dictGet (s.tfidf_vec tf) t = none :=
  tfidf_fold_get_not_mem s h []

theorem tfidf_fold_entries_nonneg (s : KeywordStore)
    (hdf : ∀ u, 0 ≤ dictGetD s.term_df u 0 ∧ dictGetD s.term_df u 0 ≤ (s.N : Int))
    (tf : Dict Nat) :
    ∀ acc : Dict ℝ, (∀ t w, dictGet acc t = some w → 0 ≤ w) →
      ∀ t w, dictGet (tf.foldl (tfidfStep s) acc) t = some w → 0 ≤ w := by
  induction tf with
  | nil => exact fun acc h => h
  | cons kv rest ih =>
    intro acc hacc
    apply ih
    intro t w hw
    obtain ⟨k, f⟩ := kv
    simp only [tfidfStep] at hw
    split_ifs at hw with hc
    · exact hacc t w hw
    · by_cases hk : k = t
      · subst hk
        rw [dictGet_dictSet_self] at hw
        injection hw with hh
        rw [← hh]
        push_neg at hc
        have hdfu := hdf k
        have h0 : (0:ℝ) ≤ ((dictGetD s.term_df k 0 : Int) : ℝ) := by
          exact_mod_cast hdfu.1
        have hpos : (0 : ℝ) < 1 + ((dictGetD s.term_df k 0 : Int) : ℝ) := by linarith
        have hleN : ((dictGetD s.term_df k 0 : Int) : ℝ) ≤ (s.N : ℝ) := by
          exact_mod_cast hdfu.2
        have hle' : (1 : ℝ) + ((dictGetD s.term_df k 0 : Int) : ℝ) ≤ 1 + (s.N : ℝ) := by
          linarith
        have hlog : 0 ≤ Real.log
            ((1 + (s.N : ℝ)) / (1 + ((dictGetD s.term_df k 0 : Int) : ℝ))) :=
          Real.log_nonneg ((one_le_div hpos).mpr hle')
        exact mul_nonneg (Nat.cast_nonneg f) (by linarith)
      · rw [dictGet_dictSet_ne _ _ hk] at hw
        exact hacc t w hw

theorem tfidf_vec_entries_nonneg {s : KeywordStore} (h : Inv s)
    {tf : Dict Nat} {t : String} {w : ℝ}
    (hw : dictGet (s.tfidf_vec tf) t = some w) : 0 ≤ w :=
  tfidf_fold_entries_nonneg s h.df_bounds tf []
    (fun _ _ hx => Option.noConfusion hx) t w hw

end ElSol

namespace ElSol

/-! ### Cosine-similarity lemmas -/

theorem sumSquares_nonneg (d : Dict ℝ) : 0 ≤ sumSquares d := by
  have aux : ∀ (l : Dict ℝ) (x : ℝ), 0 ≤ x →
      0 ≤ l.foldl (fun acc kv => acc + kv.2 * kv.2) x := by
    intro l
    induction l with
    | nil => exact fun x hx => hx
    | cons kv rest ih =>
      intro x hx
      exact ih _ (add_nonneg hx (mul_self_nonneg _))
  exact aux d 0 le_rfl

theorem cosineDot_fold_nonneg (big : Dict ℝ)
    (hb : ∀ t w, dictGet big t = some w → 0 ≤ w) (small : Dict ℝ) :
    ∀ x : ℝ, 0 ≤ x → (∀ kv ∈ small, 0 ≤ kv.2) →
      0 ≤ small.foldl
        (fun acc kv =>
          if dictHas big kv.1 then acc + kv.2 * dictGetD big kv.1 0 else acc)
        x := by
  induction small with
  | nil => exact fun x hx _ => hx
  | cons kv rest ih =>
    intro x hx hmem
    rw [List.foldl_cons]
    refine ih _ ?_ (fun p hp => hmem p (List.mem_cons_of_mem _ hp))
    by_cases hhas : dictHas big kv.1
    · rw [if_pos hhas]
      have hkv : 0 ≤ kv.2 := hmem kv (List.mem_cons_self _ _)
      rcases Option.isSome_iff_exists.mp hhas with ⟨w, hw⟩
      have hw0 : 0 ≤ w := hb _ _ hw
      have hgd : dictGetD big kv.1 0 = w := by simp [dictGetD, hw]
      rw [hgd]
      have := mul_nonneg hkv hw0
      linarith
    · rw [if_neg hhas]
      exact hx

theorem cosineDot_nonneg {small big : Dict ℝ}
    (hb : ∀ t w, dictGet big t = some w → 0 ≤ w)
    (hs : ∀ kv ∈ small, 0 ≤ kv.2) : 0 ≤ cosineDot small big :=
  cosineDot_fold_nonneg big hb small 0 le_rfl hs

theorem cosineDot_disjoint {small big : Dict ℝ}
    (h : ∀ kv ∈ small, dictHas big kv.1 = false) : cosineDot small big = 0 := by
  have aux : ∀ (l : Dict ℝ), (∀ kv ∈ l, dictHas big kv.1 = false) → ∀ x : ℝ,
      l.foldl
        (fun acc kv =>
          if dictHas big kv.1 then acc + kv.2 * dictGetD big kv.1 0 else acc)
        x = x := by
    intro l
    induction l with
    | nil => exact fun _ x => rfl
    | cons kv rest ih =>
      intro hl x
      rw [List.foldl_cons, if_neg (by
        rw [hl kv (List.mem_cons_self _ _)]
        exact Bool.false_ne_true)]
      exact ih (fun p hp => hl p (List.mem_cons_of_mem _ hp)) x
  exact aux small h 0

theorem cosine_nonneg {a b : Dict ℝ}
    (ha : ∀ kv ∈ a, 0 ≤ kv.2) (hb : ∀ kv ∈ b, 0 ≤ kv.2) :
    0 ≤ cosine a b := by
  have haget : ∀ t w, dictGet a t = some w → 0 ≤ w :=
    fun t w hw => ha (t, w) (dictGet_mem hw)
  have hbget : ∀ t w, dictGet b t = some w → 0 ≤ w :=
    fun t w hw => hb (t, w) (dictGet_mem hw)
  simp only [cosine]
  split_ifs
  · exact le_rfl
  · exact le_rfl
  · exact div_nonneg (cosineDot_nonneg hbget ha) (Real.sqrt_nonneg _)
  · exact div_nonneg (cosineDot_nonneg haget hb) (Real.sqrt_nonneg _)

theorem cosine_nil_left (b : Dict ℝ) : cosine [] b = 0 := by
  simp [cosine]

theorem cosine_nil_right (a : Dict ℝ) : cosine a [] = 0 := by
  simp [cosine]

theorem cosine_eq_zero_of_normSq {a b : Dict ℝ}
    (h : sumSquares a = 0 ∨ sumSquares b = 0) : cosine a b = 0 := by
  simp only [cosine]
  split_ifs with h1
  · rfl
  · rfl

theorem cosine_eq_zero_of_disjoint {a b : Dict ℝ}
    (hdisj : ∀ kv ∈ a, dictHas b kv.1 = false) : cosine a b = 0 := by
  have hdisj' : ∀ kv ∈ b, dictHas a kv.1 = false := by
    intro kv hkv
    cases hx : dictHas a kv.1
    · rfl
    · exfalso
      rcases Option.isSome_iff_exists.mp hx with ⟨w, hw⟩
      have h1 := hdisj (kv.1, w) (dictGet_mem hw)
      have hmemb : kv.1 ∈ dictKeys b := List.mem_map_of_mem _ hkv
      have h2 : dictHas b kv.1 = true := has_of_mem_keys hmemb
      rw [h1] at h2
      exact Bool.noConfusion h2
  simp only [cosine]
  split_ifs
  · rfl
  · rfl
  · rw [cosineDot_disjoint hdisj, zero_div]
  · rw [cosineDot_disjoint hdisj', zero_div]

end ElSol

namespace ElSol

/-! ### The descending sort order of `search` -/

theorem descLe_iff {x y : ℝ × String} :
    descLe x y = true ↔ (y.1 < x.1 ∨ (y.1 = x.1 ∧ y.2 ≤ x.2)) := by
  simp [descLe]

theorem descLe_trans : ∀ (a b c : ℝ × String),
    descLe a b → descLe b c → descLe a c := by
  intro a b c hab hbc
  rw [descLe_iff] at *
  rcases hab with h1 | ⟨h1, h2⟩ <;> rcases hbc with h3 | ⟨h3, h4⟩
  · exact Or.inl (lt_trans h3 h1)
  · exact Or.inl (lt_of_eq_of_lt h3 h1)
  · exact Or.inl (lt_of_lt_of_eq h3 h1)
  · exact Or.inr ⟨h3.trans h1, h4.trans h2⟩

theorem descLe_total : ∀ (a b : ℝ × String), descLe a b || descLe b a := by
  intro a b
  rw [Bool.or_eq_true, descLe_iff, descLe_iff]
  rcases lt_trichotomy a.1 b.1 with h | h | h
  · exact Or.inr (Or.inl h)
  · rcases le_total b.2 a.2 with hs | hs
    · exact Or.inl (Or.inr ⟨h.symm, hs⟩)
    · exact Or.inr (Or.inr ⟨h, hs⟩)
  · exact Or.inl (Or.inl h)

theorem descLe_antisymm : ∀ (a b : ℝ × String),
    descLe a b = true → descLe b a = true → a = b := by
  intro a b hab hba
  rw [descLe_iff] at hab hba
  rcases hab with h1 | ⟨h1, h2⟩ <;> rcases hba with h3 | ⟨h3, h4⟩
  · exfalso; linarith
  · exfalso; linarith
  · exfalso; linarith
  · exact Prod.ext h3 (le_antisymm h4 h2)

theorem sorted_mergeSort_descLe (l : List (ℝ × String)) :
    (l.mergeSort descLe).Pairwise (fun x y => descLe x y = true) :=
  List.sorted_mergeSort (fun a b c => descLe_trans a b c)
    (fun a b => descLe_total a b) l

/-- Any list that is a permutation of `l` and sorted in the descending order
is THE sorted list: the sort result is uniquely determined. -/
theorem eq_mergeSort_of_perm_of_sorted {l l' : List (ℝ × String)}
    (hp : l'.Perm l) (hs : l'.Pairwise (fun x y => descLe x y = true)) :
    l' = l.mergeSort descLe := by
  haveI : IsAntisymm (ℝ × String) (fun x y => descLe x y = true) :=
    ⟨descLe_antisymm⟩
  have hs' : List.Sorted (fun x y => descLe x y = true) l' := hs
  have hs'' : List.Sorted (fun x y => descLe x y = true) (l.mergeSort descLe) :=
    sorted_mergeSort_descLe l
  exact List.eq_of_perm_of_sorted
    (hp.trans (List.mergeSort_perm l descLe).symm) hs' hs''

theorem scoreList_length (s : KeywordStore) (q : String) :
    (s.scoreList q).length = s.doc_tokens.length := by
  simp [KeywordStore.scoreList]

theorem pySlice_length {α : Type} (l : List α) (k : Int) :
    (pySlice l k).length =
      if k < 0 then l.length - k.natAbs else min k.toNat l.length := by
  rw [pySlice]
  split_ifs
  · rw [List.length_take]
    exact min_eq_left (Nat.sub_le _ _)
  · exact List.length_take _ _

theorem search_length (s : KeywordStore) (q : String) (k : Int) :
    (s.search q k).length =
      if k < 0 then s.doc_tokens.length - k.natAbs
      else min k.toNat s.doc_tokens.length := by
  show ((pySlice ((s.scoreList q).mergeSort descLe) k).map
    (fun p => (⟨p.2, p.1, dictGetD s.docs p.2 []⟩ : ScoredPoint))).length = _
  rw [List.length_map, pySlice_length, List.length_mergeSort, scoreList_length]

end ElSol

namespace ElSol

/-! ### Congruence of queries under states that agree -/

theorem dictSet_dictSet_get_comm {β : Type} (d : Dict β) {k1 k2 : String}
    (v1 v2 : β) (h : k1 ≠ k2) (x : String) :
    dictGet (dictSet (dictSet d k1 v1) k2 v2) x
      = dictGet (dictSet (dictSet d k2 v2) k1 v1) x := by
  by_cases h1 : k1 = x
  · subst h1
    rw [dictGet_dictSet_ne _ _ (Ne.symm h), dictGet_dictSet_self,
      dictGet_dictSet_self]
  · by_cases h2 : k2 = x
    · subst h2
      rw [dictGet_dictSet_self, dictGet_dictSet_ne _ _ h, dictGet_dictSet_self]
    · rw [dictGet_dictSet_ne _ _ h2, dictGet_dictSet_ne _ _ h1,
        dictGet_dictSet_ne _ _ h1, dictGet_dictSet_ne _ _ h2]

theorem tfidfStep_congr {s1 s2 : KeywordStore}
    (hdf : ∀ t, dictGet s1.term_df t = dictGet s2.term_df t)
    (hN : s1.N = s2.N) : tfidfStep s1 = tfidfStep s2 := by
  funext vec kv
  simp only [tfidfStep, dictGetD, hdf kv.1, hN]

theorem tfidf_vec_congr {s1 s2 : KeywordStore}
    (hdf : ∀ t, dictGet s1.term_df t = dictGet s2.term_df t)
    (hN : s1.N = s2.N) :
    KeywordStore.tfidf_vec s1 = KeywordStore.tfidf_vec s2 := by
  funext tf
  rw [KeywordStore.tfidf_vec, KeywordStore.tfidf_vec, tfidfStep_congr hdf hN]

theorem scoreList_perm {s1 s2 : KeywordStore}
    (hdf : ∀ t, dictGet s1.term_df t = dictGet s2.term_df t)
    (hN : s1.N = s2.N) (htok : s1.doc_tokens.Perm s2.doc_tokens) (q : String) :
    (s1.scoreList q).Perm (s2.scoreList q) := by
  rw [KeywordStore.scoreList, KeywordStore.scoreList, tfidf_vec_congr hdf hN]
  exact htok.map _

theorem search_congr {s1 s2 : KeywordStore}
    (hdf : ∀ t, dictGet s1.term_df t = dictGet s2.term_df t)
    (hN : s1.N = s2.N)
    (hdocs : ∀ x, dictGet s1.docs x = dictGet s2.docs x)
    (htok : s1.doc_tokens.Perm s2.doc_tokens) (q : String) (k : Int) :
    s1.search q k = s2.search q k := by
  have hms : (s1.scoreList q).mergeSort descLe
      = (s2.scoreList q).mergeSort descLe := by
    apply eq_mergeSort_of_perm_of_sorted
    · exact (List.mergeSort_perm _ _).trans (scoreList_perm hdf hN htok q)
    · exact sorted_mergeSort_descLe _
  have hfun : (fun p : ℝ × String =>
      (⟨p.2, p.1, dictGetD s1.docs p.2 []⟩ : ScoredPoint))
      = (fun p : ℝ × String =>
      (⟨p.2, p.1, dictGetD s2.docs p.2 []⟩ : ScoredPoint)) := by
    funext p
    simp only [dictGetD, hdocs p.2]
  show (pySlice ((s1.scoreList q).mergeSort descLe) k).map _
      = (pySlice ((s2.scoreList q).mergeSort descLe) k).map _
  rw [hms, hfun]

end ElSol

namespace ElSol

/-! ### Remaining shared helpers for the claims -/

theorem mem_dictSet {β : Type} {d : Dict β} {k : String} {v : β}
    {kv : String × β} (h : kv ∈ dictSet d k v) : kv = (k, v) ∨ kv ∈ d := by
  induction d with
  | nil => simpa [dictSet] using h
  | cons kv₀ rest ih =>
    obtain ⟨k₀, v₀⟩ := kv₀
    by_cases hk : k₀ = k
    · subst hk
      rcases List.mem_cons.mp (by simpa [dictSet] using h) with h' | h'
      · exact Or.inl h'
      · exact Or.inr (List.mem_cons_of_mem _ h')
    · rcases List.mem_cons.mp (by simpa [dictSet, hk] using h) with h' | h'
      · exact Or.inr (by simp [h'])
      · rcases ih h' with h'' | h''
        · exact Or.inl h''
        · exact Or.inr (List.mem_cons_of_mem _ h'')

theorem tfidf_vec_mem_nonneg {s : KeywordStore} (h : Inv s) (tf : Dict Nat) :
    ∀ kv ∈ s.tfidf_vec tf, 0 ≤ kv.2 := by
  have hdf := h.df_bounds
  have aux : ∀ (l : Dict Nat) (acc : Dict ℝ), (∀ kv ∈ acc, 0 ≤ kv.2) →
      ∀ kv ∈ l.foldl (tfidfStep s) acc, 0 ≤ kv.2 := by
    intro l
    induction l with
    | nil => exact fun acc hacc => hacc
    | cons kv₀ rest ih =>
      intro acc hacc
      apply ih
      intro kv hkv
      obtain ⟨k, f⟩ := kv₀
      simp only [tfidfStep] at hkv
      split_ifs at hkv with hc
      · exact hacc kv hkv
      · rcases mem_dictSet hkv with rfl | hmem
        · push_neg at hc
          have hdfu := hdf k
          have h0 : (0:ℝ) ≤ ((dictGetD s.term_df k 0 : Int) : ℝ) := by
            exact_mod_cast hdfu.1
          have hpos : (0 : ℝ) < 1 + ((dictGetD s.term_df k 0 : Int) : ℝ) := by
            linarith
          have hleN : ((dictGetD s.term_df k 0 : Int) : ℝ) ≤ (s.N : ℝ) := by
            exact_mod_cast hdfu.2
          have hlog : 0 ≤ Real.log
              ((1 + (s.N : ℝ)) / (1 + ((dictGetD s.term_df k 0 : Int) : ℝ))) :=
            Real.log_nonneg ((one_le_div hpos).mpr (by linarith))
          exact mul_nonneg (Nat.cast_nonneg f) (by linarith)
        · exact hacc _ hmem
  exact aux tf [] (by simp)

theorem pySlice_sublist {α : Type} (l : List α) (k : Int) :
    (pySlice l k).Sublist l := by
  rw [pySlice]
  split_ifs
  · exact List.take_sublist _ _
  · exact List.take_sublist _ _

/-- The two stored documents used in the concrete counterexamples. -/
def c1ops : List AddOp := [⟨"d1", "x", []⟩, ⟨"d2", "y", []⟩]

/-- The update-retraction scenario of the spec: `"d1"` first holds
"alpha beta" and is then replaced by "gamma". -/
def c2ops : List AddOp :=
  [⟨"d1", "alpha beta", []⟩, ⟨"d1", "gamma", []⟩]

/-! ### The claims -/

/-- C1, counterexample: the claim says `search(q, k)` is empty for every
`k ≤ 0`, but with two stored documents `search(q, -1)` returns one result
(Python's `scores[:top_k]` slice drops only the last element), so the
returned sequence is not empty. -/
theorem C1_negative_top_k_counterexample :
    ((runAdds c1ops).search "q" (-1)).length = 1 ∧
    (runAdds c1ops).search "q" (-1) ≠ [] := by
  have hdt : (runAdds c1ops).doc_tokens.length = 2 := by rfl
  have hlen : ((runAdds c1ops).search "q" (-1)).length = 1 := by
    rw [search_length, hdt]
    decide
  refine ⟨hlen, fun hnil => ?_⟩
  rw [hnil] at hlen
  exact absurd hlen (by decide)

/-- C1, amended: `search` with `top_k = 0` returns the empty sequence; for
negative `top_k` Python slice semantics apply, so `search` returns the
first `max(N + top_k, 0)` sorted results — i.e. the result length is
`N - |top_k|` (truncated at zero), not necessarily zero. -/
theorem C1_top_k_nonpositive_amended (s : KeywordStore) (q : String)
    (k : Int) (hk : k < 0) :
    s.search q 0 = [] ∧
    (s.search q k).length = s.doc_tokens.length - k.natAbs := by
  constructor
  · show (pySlice ((s.scoreList q).mergeSort descLe) 0).map
      (fun p => (⟨p.2, p.1, dictGetD s.docs p.2 []⟩ : ScoredPoint)) = []
    rw [show pySlice ((s.scoreList q).mergeSort descLe) 0 = [] from by
      simp [pySlice]]
    rfl
  · rw [search_length, if_pos hk]

theorem C1_top_k_nonpositive_amended_witness :
    ((-1 : Int) < 0) ∧
    ((runAdds c1ops).search "q" 0 = [] ∧
      ((runAdds c1ops).search "q" (-1)).length
        = (runAdds c1ops).doc_tokens.length - (-1 : Int).natAbs) :=
  ⟨by decide, C1_top_k_nonpositive_amended (runAdds c1ops) "q" (-1) (by decide)⟩

/-- C2: after adding `"d1"` with "alpha beta" and re-adding `"d1"` with
"gamma", the DF entry for "alpha" is fully removed (no other document
contains it), and a search for "alpha" yields zero matches for `"d1"`: the
only returned point for `"d1"` carries score exactly `0` (the query vector
is empty because "alpha" is gone from the corpus). -/
theorem C2_update_retraction :
    dictGet (runAdds c2ops).term_df "alpha" = none ∧
    (runAdds c2ops).search "alpha" 3 = [⟨"d1", 0, [("text", "gamma")]⟩] := by
  have hqvec : KeywordStore.tfidf_vec (runAdds c2ops)
      (counterOf (tokenize "alpha")) = [] := by
    have hq : counterOf (tokenize "alpha") = [("alpha", 1)] := by rfl
    have hs : runAdds c2ops =
        { docs := [("d1", [("text", "gamma")])],
          term_df := [("gamma", 1)],
          doc_tokens := [("d1", [("gamma", 1)])], N := 1 } := by rfl
    rw [hq, hs]
    simp only [KeywordStore.tfidf_vec, List.foldl_cons, List.foldl_nil,
      tfidfStep, dictGetD, dictGet]
    rw [if_neg (by decide : ¬ "gamma" = "alpha")]
    simp
  have hsl : KeywordStore.scoreList (runAdds c2ops) "alpha" = [(0, "d1")] := by
    rw [KeywordStore.scoreList, hqvec]
    have hdt : (runAdds c2ops).doc_tokens = [("d1", [("gamma", 1)])] := by rfl
    rw [hdt]
    simp only [List.map_cons, List.map_nil, cosine_nil_left]
  refine ⟨by rfl, ?_⟩
  show (pySlice ((KeywordStore.scoreList (runAdds c2ops)
    "alpha").mergeSort descLe) 3).map _ = _
  rw [hsl, List.mergeSort_singleton]
  rw [show pySlice [((0 : ℝ), "d1")] 3 = [((0 : ℝ), "d1")] from by
    simp [pySlice]]
  have hdocs : dictGetD (runAdds c2ops).docs "d1" [] = [("text", "gamma")] := by
    rfl
  simp only [List.map_cons, List.map_nil, hdocs]

/-- C3: in every reachable store, every entry of the DF table is strictly
positive and equals the number of stored documents whose term-frequency
table contains the term, and `N` equals the number of stored documents. -/
theorem C3_df_invariant (ops : List AddOp) :
    (∀ t v, dictGet (runAdds ops).term_df t = some v →
      0 < v ∧ v = (countTermDocs (runAdds ops) t : Int)) ∧
    (runAdds ops).N = (runAdds ops).docs.length := by
  have h := inv_runAdds ops
  refine ⟨fun t v hget => ⟨h.df_pos t v hget, ?_⟩, h.n_eq⟩
  have hc := h.df_count t
  have hv : dictGetD (runAdds ops).term_df t 0 = v := by simp [dictGetD, hget]
  omega

theorem C3_df_invariant_witness :
    (0 < (1 : Int) ∧ (1 : Int) = (countTermDocs (runAdds c2ops) "gamma" : Int)) ∧
    (runAdds c2ops).N = (runAdds c2ops).docs.length :=
  ⟨(C3_df_invariant c2ops).1 "gamma" 1 (by rfl), (C3_df_invariant c2ops).2⟩

/-- C4: the results of `search` are sorted by score descending, with ties
broken by descending (lexicographically greater first) `doc_id`. -/
theorem C4_search_sorted_desc (s : KeywordStore) (q : String) (k : Int) :
    (s.search q k).Pairwise
      (fun x y => y.score < x.score ∨ (y.score = x.score ∧ y.id ≤ x.id)) := by
  show ((pySlice ((s.scoreList q).mergeSort descLe) k).map
    (fun p => (⟨p.2, p.1, dictGetD s.docs p.2 []⟩ : ScoredPoint))).Pairwise _
  refine List.Pairwise.map _ ?_
    ((sorted_mergeSort_descLe (s.scoreList q)).sublist (pySlice_sublist _ k))
  intro a b hab
  rw [descLe_iff] at hab
  exact hab

end ElSol

namespace ElSol

/-- C5: in any reachable store, the TF-IDF weight assigned to a term `t`
present in a term-frequency table with raw frequency `f` is
`f * (ln((1+N)/(1+DF(t))) + 1)` whenever `DF(t) ≠ 0` and `N ≠ 0`; the term
is omitted when `DF(t) = 0` or `N = 0`; and every stored weight is
nonnegative (the computation is over the reals, so no division by zero can
occur: `1 + DF(t) ≥ 1`). -/
theorem C5_tfidf_weights (ops : List AddOp) (tf : Dict Nat)
    (hnd : (dictKeys tf).Nodup) (t : String) (f : Nat)
    (hget : dictGet tf t = some f) :
    ((dictGetD (runAdds ops).term_df t 0 = 0 ∨ (runAdds ops).N = 0) →
      dictGet ((runAdds ops).tfidf_vec tf) t = none) ∧
    (dictGetD (runAdds ops).term_df t 0 ≠ 0 → (runAdds ops).N ≠ 0 →
      dictGet ((runAdds ops).tfidf_vec tf) t =
        some ((f : ℝ) * (Real.log ((1 + ((runAdds ops).N : ℝ)) /
          (1 + ((dictGetD (runAdds ops).term_df t 0 : Int) : ℝ))) + 1))) ∧
    (∀ u w, dictGet ((runAdds ops).tfidf_vec tf) u = some w → 0 ≤ w) := by
  have hvec := tfidf_vec_get_of_get_some (runAdds ops) hnd hget
  refine ⟨fun hc => by rw [hvec, if_pos hc], fun h1 h2 => ?_,
    fun u w hw => tfidf_vec_entries_nonneg (inv_runAdds ops) hw⟩
  rw [hvec, if_neg (by tauto)]

theorem C5_tfidf_weights_witness :
    (dictKeys [("gamma", 2)]).Nodup ∧
    dictGet [("gamma", 2)] "gamma" = some 2 ∧
    (((dictGetD (runAdds c2ops).term_df "gamma" 0 = 0 ∨ (runAdds c2ops).N = 0) →
      dictGet ((runAdds c2ops).tfidf_vec [("gamma", 2)]) "gamma" = none) ∧
    (dictGetD (runAdds c2ops).term_df "gamma" 0 ≠ 0 → (runAdds c2ops).N ≠ 0 →
      dictGet ((runAdds c2ops).tfidf_vec [("gamma", 2)]) "gamma" =
        some (((2 : Nat) : ℝ) * (Real.log ((1 + ((runAdds c2ops).N : ℝ)) /
          (1 + ((dictGetD (runAdds c2ops).term_df "gamma" 0 : Int) : ℝ))) + 1))) ∧
    (∀ u w, dictGet ((runAdds c2ops).tfidf_vec [("gamma", 2)]) u = some w →
      0 ≤ w)) :=
  ⟨by decide, by rfl,
    C5_tfidf_weights c2ops [("gamma", 2)] (by decide) "gamma" 2 (by rfl)⟩

/-- C6: for vectors with nonnegative entries (as all TF-IDF vectors built by
`search` are), cosine similarity is nonnegative (in particular never NaN:
it is a total real-valued function), is exactly `0` when either vector is
empty or has zero squared norm, is exactly `0` when the vectors share no
keys, and consequently every score returned by `search` on a reachable
store is nonnegative. -/
theorem C6_cosine_safety (a b : Dict ℝ)
    (ha : ∀ kv ∈ a, 0 ≤ kv.2) (hb : ∀ kv ∈ b, 0 ≤ kv.2) :
    0 ≤ cosine a b ∧
    ((a = [] ∨ b = []) → cosine a b = 0) ∧
    ((sumSquares a = 0 ∨ sumSquares b = 0) → cosine a b = 0) ∧
    ((∀ kv ∈ a, dictHas b kv.1 = false) → cosine a b = 0) ∧
    (∀ ops q k r, r ∈ (runAdds ops).search q k → 0 ≤ r.score) := by
  refine ⟨cosine_nonneg ha hb, ?_, fun h => cosine_eq_zero_of_normSq h,
    fun h => cosine_eq_zero_of_disjoint h, ?_⟩
  · rintro (rfl | rfl)
    · exact cosine_nil_left b
    · exact cosine_nil_right a
  · intro ops q k r hr
    simp only [KeywordStore.search] at hr
    obtain ⟨p, hp, hrp⟩ := List.mem_map.mp hr
    have hp' : p ∈ ((runAdds ops).scoreList q).mergeSort descLe :=
      (pySlice_sublist _ k).subset hp
    rw [List.mem_mergeSort] at hp'
    simp only [KeywordStore.scoreList] at hp'
    obtain ⟨kv, hkv, hpe⟩ := List.mem_map.mp hp'
    rw [← hrp, ← hpe]
    exact cosine_nonneg (tfidf_vec_mem_nonneg (inv_runAdds ops) _)
      (tfidf_vec_mem_nonneg (inv_runAdds ops) _)

theorem C6_cosine_safety_witness :
    (∀ kv ∈ [(("x" : String), (1 : ℝ))], 0 ≤ kv.2) ∧
    (∀ kv ∈ [(("y" : String), (2 : ℝ))], 0 ≤ kv.2) ∧
    (0 ≤ cosine [("x", 1)] [("y", 2)] ∧
     (([(("x" : String), (1 : ℝ))] = ([] : Dict ℝ) ∨
       [(("y" : String), (2 : ℝ))] = ([] : Dict ℝ)) →
       cosine [("x", 1)] [("y", 2)] = 0) ∧
     ((sumSquares [(("x" : String), (1 : ℝ))] = 0 ∨
       sumSquares [(("y" : String), (2 : ℝ))] = 0) →
       cosine [("x", 1)] [("y", 2)] = 0) ∧
     ((∀ kv ∈ [(("x" : String), (1 : ℝ))],
       dictHas [(("y" : String), (2 : ℝ))] kv.1 = false) →
       cosine [("x", 1)] [("y", 2)] = 0) ∧
     (∀ ops q k r, r ∈ (runAdds ops).search q k → 0 ≤ r.score)) := by
  have h1 : ∀ kv ∈ [(("x" : String), (1 : ℝ))], 0 ≤ kv.2 := by
    intro kv hkv
    rw [List.mem_singleton] at hkv
    rw [hkv]
    norm_num
  have h2 : ∀ kv ∈ [(("y" : String), (2 : ℝ))], 0 ≤ kv.2 := by
    intro kv hkv
    rw [List.mem_singleton] at hkv
    rw [hkv]
    norm_num
  exact ⟨h1, h2, C6_cosine_safety _ _ h1 h2⟩

/-- C7: adding two documents with distinct `doc_id`s in either order, after
any common prefix of adds, produces the same DF table (as a key-value map),
the same corpus size `N`, and identical `search` results for every query
and `top_k`. -/
theorem C7_order_independence (ops : List AddOp) (A B : AddOp)
    (hne : A.doc_id ≠ B.doc_id) :
    (∀ t, dictGet (runAdds (ops ++ [A, B])).term_df t
        = dictGet (runAdds (ops ++ [B, A])).term_df t) ∧
    (runAdds (ops ++ [A, B])).N = (runAdds (ops ++ [B, A])).N ∧
    ∀ q k, (runAdds (ops ++ [A, B])).search q k
        = (runAdds (ops ++ [B, A])).search q k := by
  have h1 : runAdds (ops ++ [A, B]) = addDocument (addDocument (runAdds ops)
      A.doc_id A.text A.metadata) B.doc_id B.text B.metadata := by
    rw [runAdds, List.foldl_append]
    rfl
  have h2 : runAdds (ops ++ [B, A]) = addDocument (addDocument (runAdds ops)
      B.doc_id B.text B.metadata) A.doc_id A.text A.metadata := by
    rw [runAdds, List.foldl_append]
    rfl
  have htok : ∀ x, dictGet (runAdds (ops ++ [A, B])).doc_tokens x
      = dictGet (runAdds (ops ++ [B, A])).doc_tokens x := by
    intro x
    rw [h1, h2]
    exact dictSet_dictSet_get_comm (runAdds ops).doc_tokens
      (counterOf (tokenize A.text)) (counterOf (tokenize B.text)) hne x
  have htokperm : (runAdds (ops ++ [A, B])).doc_tokens.Perm
      (runAdds (ops ++ [B, A])).doc_tokens := by
    rw [h1, h2]
    exact dictSet_dictSet_perm (runAdds ops).doc_tokens
      (counterOf (tokenize A.text)) (counterOf (tokenize B.text)) hne
  have hdocs : ∀ x, dictGet (runAdds (ops ++ [A, B])).docs x
      = dictGet (runAdds (ops ++ [B, A])).docs x := by
    intro x
    rw [h1, h2]
    exact dictSet_dictSet_get_comm (runAdds ops).docs
      (dictMerge (dictMerge [("text", A.text)] A.metadata) [("text", A.text)])
      (dictMerge (dictMerge [("text", B.text)] B.metadata) [("text", B.text)])
      hne x
  have hdocsperm : (runAdds (ops ++ [A, B])).docs.Perm
      (runAdds (ops ++ [B, A])).docs := by
    rw [h1, h2]
    exact dictSet_dictSet_perm (runAdds ops).docs
      (dictMerge (dictMerge [("text", A.text)] A.metadata) [("text", A.text)])
      (dictMerge (dictMerge [("text", B.text)] B.metadata) [("text", B.text)])
      hne
  have hInv1 := inv_runAdds (ops ++ [A, B])
  have hInv2 := inv_runAdds (ops ++ [B, A])
  have hcnt : ∀ t, countTermDocs (runAdds (ops ++ [A, B])) t
      = countTermDocs (runAdds (ops ++ [B, A])) t := by
    intro t
    rw [countTermDocs, countTermDocs]
    exact htokperm.countP_eq _
  have hdf : ∀ t, dictGet (runAdds (ops ++ [A, B])).term_df t
      = dictGet (runAdds (ops ++ [B, A])).term_df t := by
    intro t
    rw [hInv1.df_canon t, hInv2.df_canon t, hcnt t]
  have hN : (runAdds (ops ++ [A, B])).N = (runAdds (ops ++ [B, A])).N := by
    rw [hInv1.n_eq, hInv2.n_eq]
    exact hdocsperm.length_eq
  exact ⟨hdf, hN, fun q k => search_congr hdf hN hdocs htokperm q k⟩

theorem C7_order_independence_witness :
    ((⟨"a", "x", []⟩ : AddOp).doc_id ≠ (⟨"b", "y", []⟩ : AddOp).doc_id) ∧
    ((∀ t, dictGet (runAdds ([] ++ [⟨"a", "x", []⟩, ⟨"b", "y", []⟩])).term_df t
        = dictGet (runAdds ([] ++ [⟨"b", "y", []⟩, ⟨"a", "x", []⟩])).term_df t) ∧
     (runAdds ([] ++ [⟨"a", "x", []⟩, ⟨"b", "y", []⟩])).N
        = (runAdds ([] ++ [⟨"b", "y", []⟩, ⟨"a", "x", []⟩])).N ∧
     ∀ q k, (runAdds ([] ++ [⟨"a", "x", []⟩, ⟨"b", "y", []⟩])).search q k
        = (runAdds ([] ++ [⟨"b", "y", []⟩, ⟨"a", "x", []⟩])).search q k) :=
  ⟨by decide,
    C7_order_independence [] ⟨"a", "x", []⟩ ⟨"b", "y", []⟩ (by decide)⟩

/-- C8: for a fixed add sequence, query text and `top_k`, two invocations of
`query` return the same result list — and moreover the sorted score list is
the unique descending-sorted permutation of the computed scores, so any
correct sort implementation yields the same ordered result. -/
theorem C8_query_deterministic (ops : List AddOp) (q : String) (k : Int) :
    query (runAdds ops) q k = query (runAdds ops) q k ∧
    ∀ l : List (ℝ × String), l.Perm ((runAdds ops).scoreList q) →
      l.Pairwise (fun x y => descLe x y = true) →
      l = ((runAdds ops).scoreList q).mergeSort descLe :=
  ⟨rfl, fun _ hp hs => eq_mergeSort_of_perm_of_sorted hp hs⟩

theorem C8_query_deterministic_witness :
    (query (runAdds []) "q" 3 = query (runAdds []) "q" 3) ∧
    (([] : List (ℝ × String)).Perm ((runAdds []).scoreList "q")) ∧
    (([] : List (ℝ × String)).Pairwise (fun x y => descLe x y = true)) ∧
    ([] : List (ℝ × String)) = ((runAdds []).scoreList "q").mergeSort descLe := by
  have hsl : (runAdds []).scoreList "q" = [] := rfl
  refine ⟨(C8_query_deterministic [] "q" 3).1, by rw [hsl],
    List.Pairwise.nil, ?_⟩
  exact (C8_query_deterministic [] "q" 3).2 [] (by rw [hsl]) List.Pairwise.nil

/-- C9: after `add_document` in lexical mode the stored payload maps
`"text"` to the stored text — even when the metadata itself contains a
`"text"` key, because the final merge `payload | {"text": text}` lets the
explicit text win — and every other metadata pair is preserved. -/
theorem C9_payload_text_key (s : KeywordStore) (doc_id text : String)
    (metadata : Dict String) (hnd : (dictKeys metadata).Nodup) :
    ∃ p, dictGet (addDocument s doc_id text metadata).docs doc_id = some p ∧
      dictGet p "text" = some text ∧
      ∀ k v, k ≠ "text" → dictGet metadata k = some v → dictGet p k = some v := by
  refine ⟨dictMerge (dictMerge [("text", text)] metadata) [("text", text)],
    ?_, ?_, ?_⟩
  · show dictGet (dictSet s.docs doc_id _) doc_id = _
    exact dictGet_dictSet_self _ _ _
  · rw [dictMerge_single]
    exact dictGet_dictSet_self _ _ _
  · intro k v hk hv
    rw [dictMerge_single, dictGet_dictSet_ne _ _ (fun hh => hk hh.symm)]
    exact dictMerge_get_of_get_some _ hnd hv

theorem C9_payload_text_key_witness :
    (dictKeys [("text", "EVIL"), ("k", "v")]).Nodup ∧
    ∃ p, dictGet (addDocument KeywordStore.init "d" "hello"
        [("text", "EVIL"), ("k", "v")]).docs "d" = some p ∧
      dictGet p "text" = some "hello" ∧
      ∀ k v, k ≠ "text" → dictGet [("text", "EVIL"), ("k", "v")] k = some v →
        dictGet p k = some v :=
  ⟨by decide,
    C9_payload_text_key KeywordStore.init "d" "hello" _ (by decide)⟩

/-- C10: for positive `top_k`, `search` returns exactly
`min(top_k, N)` results; in particular when `top_k ≥ N` every stored
document appears in the results, including documents whose score is `0` —
no result is filtered out before the truncation. -/
theorem C10_top_k_count (s : KeywordStore) (q : String) (k : Int)
    (hk : 0 < k) :
    (s.search q k).length = min k.toNat s.doc_tokens.length ∧
    ((s.doc_tokens.length : Int) ≤ k →
      ∀ d, d ∈ dictKeys s.doc_tokens → ∃ r ∈ s.search q k, r.id = d) := by
  constructor
  · rw [search_length, if_neg (by omega)]
  · intro hle d hd
    have hlen : ((s.scoreList q).mergeSort descLe).length
        = s.doc_tokens.length := by
      rw [List.length_mergeSort, scoreList_length]
    have htake : pySlice ((s.scoreList q).mergeSort descLe) k
        = (s.scoreList q).mergeSort descLe := by
      rw [pySlice, if_neg (by omega)]
      apply List.take_of_length_le
      rw [hlen]
      omega
    rw [dictKeys] at hd
    obtain ⟨kv, hkv, hfst⟩ : ∃ kv ∈ s.doc_tokens, kv.1 = d :=
      List.mem_map.mp hd
    have hmem_sl : (cosine (s.tfidf_vec (counterOf (tokenize q)))
        (s.tfidf_vec kv.2), kv.1) ∈ s.scoreList q := by
      simp only [KeywordStore.scoreList]
      exact List.mem_map_of_mem _ hkv
    have hmem_ms : (cosine (s.tfidf_vec (counterOf (tokenize q)))
        (s.tfidf_vec kv.2), kv.1) ∈ (s.scoreList q).mergeSort descLe := by
      rw [List.mem_mergeSort]
      exact hmem_sl
    have hsearch : s.search q k = ((s.scoreList q).mergeSort descLe).map
        (fun p => (⟨p.2, p.1, dictGetD s.docs p.2 []⟩ : ScoredPoint)) := by
      show (pySlice ((s.scoreList q).mergeSort descLe) k).map
        (fun p => (⟨p.2, p.1, dictGetD s.docs p.2 []⟩ : ScoredPoint)) = _
      rw [htake]
    rw [hsearch]
    exact ⟨_, List.mem_map_of_mem _ hmem_ms, hfst⟩

theorem C10_top_k_count_witness :
    ((0 : Int) < 1) ∧
    (((runAdds c1ops).search "q" 1).length
        = min (1 : Int).toNat (runAdds c1ops).doc_tokens.length ∧
      (((runAdds c1ops).doc_tokens.length : Int) ≤ 1 →
        ∀ d, d ∈ dictKeys (runAdds c1ops).doc_tokens →
          ∃ r ∈ (runAdds c1ops).search "q" 1, r.id = d)) :=
  ⟨by decide, C10_top_k_count (runAdds c1ops) "q" 1 (by decide)⟩

end ElSol
